import Mathlib

/-!
Verification development for `index_parasentences.py` (tkrzw-dict).

The script reads tab-separated parallel-sentence lines from standard input,
deduplicates them by a hash of a normalized form of the first field,
extracts bounded n-gram candidate phrases, optionally prunes oversized
candidate sets by an interpolated phrase-probability model, and maintains a
per-phrase reservoir sample of line ids, which is flushed to a key-value
store at the end.

Modelling conventions:
* Python strings are sequences of characters; they are embedded as
  `List Char` (named `Str` below), with split/strip/join written out so that
  everything reduces in the kernel.
* Python `float` arithmetic in the probability model is embedded as exact
  rational (`ℚ`) arithmetic; the constants 0.3, 0.1 and 1e-9 become
  3/10, 1/10 and 1/10^9.
* `tkrzw.Utility.PrimaryHash` is an external 64-bit hash used only for
  duplicate detection of normalized sentences; it is embedded as the
  identity on the normalized text (a collision-free hash), matching the
  spec's guarantee that dedup is byte-for-byte on the normalized form.
* `random.Random(19780211)` (Python stdlib, external to the repository) is
  embedded as a deterministic linear-congruential state machine seeded with
  the same constant; all reservoir theorems below are proved for every
  generator state, so nothing depends on the particular update function.
* The external tokenizer (`tkrzw_tokenizer.Tokenizer`) and the optional
  phrase-probability table are black boxes, passed as function parameters
  in the configuration.
-/

/-- A Python string: a sequence of characters. -/
abbrev Str := List Char

/-- Python whitespace characters stripped by `str.strip()` (ASCII range). -/
def isPySpace (c : Char) : Bool :=
  c = ' ' || c = '\t' || c = '\n' || c = '\x0d' || c = '\x0b' || c = '\x0c'

/-- `str.strip()`: remove leading and trailing whitespace. -/
def pyStrip (s : Str) : Str :=
  ((s.dropWhile isPySpace).reverse.dropWhile isPySpace).reverse

/-- `str.split(sep)` for a one-character separator: split on every
occurrence; `"".split(sep) = [""]`, and adjacent separators yield empty
fields, exactly as in Python. -/
def splitChar (sep : Char) : Str → List Str
  | [] => [[]]
  | c :: rest =>
    let r := splitChar sep rest
    if c = sep then [] :: r else (c :: r.headD []) :: r.tail

/-- `" ".join(tokens)` over `Str` tokens. -/
def joinSpace (tokens : List Str) : Str :=
  List.intercalate [' '] tokens

/-- Lowercasing of one character as done by `str.lower()`, covering ASCII
and the Latin-1 uppercase letters (the inputs of interest are Latin text). -/
def pyLowerChar (c : Char) : Char :=
  if 'A' ≤ c ∧ c ≤ 'Z' then Char.ofNat (c.toNat + 32)
  else if 'À' ≤ c ∧ c ≤ 'Þ' ∧ c ≠ '×' then Char.ofNat (c.toNat + 32)
  else c

/-- `str.lower()` on a whole string. -/
def pyLower (s : Str) : Str := s.map pyLowerChar

/-- Membership of a character in the Latin script, the `\p{Latin}` class of
the `regex` module: ASCII letters, Latin-1 letters, the Latin Extended
blocks, and the fullwidth Latin letters. -/
def isLatin (c : Char) : Bool :=
  ('a' ≤ c && c ≤ 'z') || ('A' ≤ c && c ≤ 'Z') ||
  (c.toNat = 0xAA) || (c.toNat = 0xBA) ||
  (0xC0 ≤ c.toNat && c.toNat ≤ 0x24F && c.toNat ≠ 0xD7 && c.toNat ≠ 0xF7) ||
  (0x1E00 ≤ c.toNat && c.toNat ≤ 0x1EFF) ||
  (0x2C60 ≤ c.toNat && c.toNat ≤ 0x2C7F) ||
  (0xA720 ≤ c.toNat && c.toNat ≤ 0xA7FF) ||
  (0xAB30 ≤ c.toNat && c.toNat ≤ 0xAB6F) ||
  (0xFF21 ≤ c.toNat && c.toNat ≤ 0xFF3A) || (0xFF41 ≤ c.toNat && c.toNat ≤ 0xFF5A)

/-- The character class `[-\p{Latin}0-9_]` of the token-boundary regexes. -/
def isWordChar (c : Char) : Bool :=
  c = '-' || isLatin c || c.isDigit || c = '_'

/-- The character class `[\p{Latin}0-9]` used to test that a stripped token
still contains a letter or digit. -/
def isLatinDigit (c : Char) : Bool :=
  isLatin c || c.isDigit

/-- The four typographic quotation marks replaced by
`regex.sub(r'[‘’“”]', '"', ...)`. -/
def isCurlyQuote (c : Char) : Bool :=
  c = '‘' || c = '’' || c = '“' || c = '”'

/-- The character class `[-\p{Latin}0-9]` of the quote-spacing regex on
line 146 (unlike the token-boundary class, it has no underscore). -/
def isQuoteNeighbor (c : Char) : Bool :=
  c = '-' || isLatin c || c.isDigit

/-- `regex.sub(r'([-\p{Latin}0-9])"([-\p{Latin}0-9])', r'\1" \2', s)`:
left-to-right scan with non-overlapping matches; on a match the three
matched characters are emitted with a space inserted after the quote, and
scanning resumes after the match. -/
def quoteFixAux : Nat → Str → Str
  | 0, s => s
  | _ + 1, [] => []
  | fuel + 1, c1 :: rest =>
    match rest with
    | q :: c2 :: rest2 =>
      if q = '"' ∧ isQuoteNeighbor c1 ∧ isQuoteNeighbor c2 then
        c1 :: '"' :: ' ' :: c2 :: quoteFixAux fuel rest2
      else c1 :: quoteFixAux fuel rest
    | _ => c1 :: quoteFixAux fuel rest

/-- The whole substitution, with the scan bounded by the string length
(every step consumes at least one character, so the bound is never hit). -/
def quoteFix (s : Str) : Str := quoteFixAux s.length s

/-- The sentence normalizer (lines 144-146 of `index_parasentences.py`):
lowercase, replace curly quotes by `"`, and space out a quote squeezed
between two word characters. -/
def normalizeSentence (sentence : Str) : Str :=
  quoteFix ((pyLower sentence).map (fun c => if isCurlyQuote c then '"' else c))

/-- `tkrzw.Utility.PrimaryHash`, used only to dedup normalized sentences;
embedded as the identity (a collision-free hash of the normalized text). -/
def primaryHash (s : Str) : Str := s

/-- The Python pseudo-random generator object `random.Random(seed)`
(external to the repository): a deterministic state machine. -/
structure PyRandom where
  state : Nat
deriving DecidableEq, Repr

/-- `random.Random(seed)`: construction from a seed. -/
def PyRandom.seeded (seed : Nat) : PyRandom := ⟨seed % 2147483648⟩

/-- `Random.randint(lo, hi)`: one deterministic step of the generator,
returning a value in `[lo, hi]` (for `lo ≤ hi`) and the advanced state. -/
def PyRandom.randint (g : PyRandom) (lo hi : Nat) : Nat × PyRandom :=
  let s := (1103515245 * g.state + 12345) % 2147483648
  (lo + s % (hi + 1 - lo), ⟨s⟩)

theorem PyRandom.randint_mem (g : PyRandom) (lo hi : Nat) (h : lo ≤ hi) :
    lo ≤ (g.randint lo hi).1 ∧ (g.randint lo hi).1 ≤ hi := by
  have hpos : 0 < hi + 1 - lo := by omega
  have hlt := Nat.mod_lt ((1103515245 * g.state + 12345) % 2147483648) hpos
  simp only [PyRandom.randint]
  omega

/-- The run configuration of `MakeIndexBatch` (flags of `main`, plus the
two external collaborators: the optional phrase-probability table and the
tokenizer, both black-box functions). `phraseProb = none` means the
`--phrase_prob` flag was not given. -/
structure Config where
  maxWords : Nat
  maxNgram : Nat
  maxSamples : Nat
  phraseProb : Option (Str → Option ℚ)
  focusKeywords : List Str
  tokenize : Str → List Str

/-- `regex.search(r"^([^-\p{Latin}0-9_]+)(.*)$", word)` (line 161): if the
word starts with a run of non-word characters, report a head symbol and
return the rest. -/
def stripHeadSym (word : Str) : Bool × Str :=
  if word.takeWhile (fun c => !isWordChar c) = [] then (false, word)
  else (true, word.dropWhile (fun c => !isWordChar c))

/-- `regex.search(r"^(.*?)([^-\p{Latin}0-9_]+)$", word)` (line 166): if the
word ends with a run of non-word characters, report a tail symbol and
return the part before that maximal trailing run. -/
def stripTailSym (word : Str) : Bool × Str :=
  if word.reverse.takeWhile (fun c => !isWordChar c) = [] then (false, word)
  else (true, (word.reverse.dropWhile (fun c => !isWordChar c)).reverse)

/-- The inner window loop of phrase extraction (lines 157-185): starting at
`startIndex`, grow a token window while `index < end_index`, stripping head
and tail symbol runs, stopping at tokens without any letter or digit, at an
internal head symbol, or after a tail symbol; every accumulated prefix that
passes the vocabulary filter and is not yet listed is appended to
`phrases`.  The loop counter `index` is mirrored together with the explicit
fuel `endIndex - index`, and the second component counts `num_words`. -/
def innerLoop (cfg : Config) (words : List Str) (startIndex : Nat) :
    Nat → Nat → List Str → List Str → Nat → List Str × Nat
  | 0, _, _, phrases, numWords => (phrases, numWords)
  | fuel + 1, index, tokens, phrases, numWords =>
    let word0 := words.getD index []
    let hs := stripHeadSym word0
    let ts := stripTailSym hs.2
    let word := ts.2
    if ¬ word.any isLatinDigit then (phrases, numWords)
    else
      let numWords := numWords + 1
      if hs.1 ∧ startIndex < index then (phrases, numWords)
      else
        let tokens := tokens ++ [word]
        let phrase := joinSpace tokens
        let isGood := cfg.focusKeywords = [] ∨ phrase ∈ cfg.focusKeywords ∨
          joinSpace (cfg.tokenize phrase) ∈ cfg.focusKeywords
        let phrases := if isGood ∧ phrase ∉ phrases then phrases ++ [phrase] else phrases
        if ts.1 then (phrases, numWords)
        else innerLoop cfg words startIndex fuel (index + 1) tokens phrases numWords

/-- Candidate phrase extraction from a normalized sentence (lines 150-186):
split on single spaces, and for every start position run the window loop up
to `end_index = min(start_index + max_ngram, len(words))`.  Returns the
per-sentence candidate list (first-seen order, deduplicated) and the
`num_words` counter delta. -/
def extractPhrases (cfg : Config) (modSentence : Str) : List Str × Nat :=
  let words := splitChar ' ' modSentence
  (List.range words.length).foldl
    (fun acc startIndex =>
      let endIndex := min (startIndex + cfg.maxNgram) words.length
      innerLoop cfg words startIndex (endIndex - startIndex) startIndex [] acc.1 acc.2)
    ([], 0)

/-- The floor probability `0.000000001` of `GetPhraseProb`. -/
def baseProb : ℚ := 1 / 1000000000

/-- One table lookup
`float(self.phrase_prob_dbm.GetStr(cur_phrase) or 0.0)`: an absent key
reads as probability 0. -/
def lookupProb (table : Str → Option ℚ) (phrase : Str) : ℚ :=
  (table phrase).getD 0

/-- The sliding windows of `ngram` consecutive tokens, joined with spaces:
`" ".join(tokens[index:index + ngram])` for `index` in
`0 .. len(tokens) - ngram` (lines 112-121). -/
def windowPhrases (tokens : List Str) (ngram : Nat) : List Str :=
  (List.range (tokens.length + 1 - ngram)).map
    (fun index => joinSpace ((tokens.drop index).take ngram))

/-- The probabilities of all sliding windows of size `ngram`; the loop of
lines 112-121 breaks at the first probability 0 (`miss`), which is the
same as these values containing a 0. -/
def windowProbs (table : Str → Option ℚ) (tokens : List Str) (ngram : Nat) : List ℚ :=
  (windowPhrases tokens ngram).map (lookupProb table)

/-- The descending-order loop `for ngram in range(max_ngram, 0, -1)` of
`GetPhraseProb` (lines 103-130), with the accumulated `fallback_penalty`;
reaching order 0 is falling off the loop, returning `base_prob`. -/
def probLoop (table : Str → Option ℚ) (tokens : List Str) :
    Nat → ℚ → ℚ
  | 0, _ => baseProb
  | n + 1, penalty =>
    let ngram := n + 1
    if tokens.length ≤ ngram then
      let prob := lookupProb table (joinSpace tokens)
      if prob ≠ 0 then max prob baseProb
      else probLoop table tokens n (penalty * (1 / 10))
    else
      let probs := windowProbs table tokens ngram
      if 0 ∈ probs then probLoop table tokens n (penalty * (1 / 10))
      else
        let invSum := probs.foldl (fun acc p => acc + 1 / p) 0
        let prob := (probs.length : ℚ) / invSum * (3 / 10) ^ (tokens.length - ngram) * penalty
        max prob baseProb

/-- `MakeIndexBatch.GetPhraseProb` (lines 97-131). -/
def getPhraseProb (table : Str → Option ℚ) (word : Str) : ℚ :=
  let tokens := splitChar ' ' word
  if tokens = [] then baseProb
  else probLoop table tokens (min 3 tokens.length) 1

/-- The candidate pruning step (lines 187-194): when a sentence yields more
than `max_words` candidates and a phrase-probability table is configured,
the candidates are scored and stably sorted ascending by score (Python's
`sorted` with `key=lambda x: x[1]`, embedded as the stable
`List.insertionSort`); otherwise the list is passed through unchanged. -/
def prunePhrases (cfg : Config) (phrases : List Str) : List Str :=
  if cfg.maxWords < phrases.length then
    match cfg.phraseProb with
    | some table =>
      (List.insertionSort (fun a b => a.2 ≤ b.2)
        (phrases.map (fun p => (p, getPhraseProb table p)))).map Prod.fst
    | none => phrases
  else phrases

/-- `ReservoirIndex.Update` on an existing record (lines 199-207).  A
record is a Python list whose head is the occurrence count and whose tail
is the sample list: `old_record[0] = count`, `old_record[1:] = samples`. -/
def updateRecord (maxSamples lineId : Nat) (oldRecord : List Nat) (rng : PyRandom) :
    List Nat × PyRandom :=
  let numSamples := oldRecord.headD 0 + 1
  if oldRecord.length ≤ maxSamples then
    ((oldRecord ++ [lineId]).set 0 numSamples, rng)
  else
    let rr := rng.randint 1 numSamples
    if rr.1 < maxSamples then ((oldRecord.set rr.1 lineId).set 0 numSamples, rr.2)
    else (oldRecord.set 0 numSamples, rr.2)

/-- Modelled from the spec (§4.5 `Update`), for comparison with
`updateRecord`: the spec keeps `(count, samples)` and, once the reservoir
is full, draws `r` in `[1, count]` and overwrites `samples[r - 1]` whenever
`r <= max_samples`. -/
def specReservoirUpdate (maxSamples lineId : Nat) (count : Nat) (samples : List Nat)
    (rng : PyRandom) : Nat × List Nat × PyRandom :=
  let count := count + 1
  if samples.length < maxSamples then (count, samples ++ [lineId], rng)
  else
    let rr := rng.randint 1 count
    if rr.1 ≤ maxSamples then (count, samples.set (rr.1 - 1) lineId, rr.2)
    else (count, samples, rr.2)

/-- First-match lookup in the insertion-ordered word index
(`self.word_index.get(phrase)`). -/
def dictGet (w : List (Str × List Nat)) (p : Str) : Option (List Nat) :=
  match w with
  | [] => none
  | e :: t => if e.1 = p then some e.2 else dictGet t p

/-- Assignment in the insertion-ordered word index: an existing key keeps
its position, a new key is appended (Python `dict` semantics). -/
def dictSet (w : List (Str × List Nat)) (p : Str) (r : List Nat) : List (Str × List Nat) :=
  match w with
  | [] => [(p, r)]
  | e :: t => if e.1 = p then (p, r) :: t else e :: dictSet t p r

/-- One iteration of the phrase loop of lines 197-209: update the existing
record of `phrase` (Python tests the record for truthiness, so an empty
list would count as absent), or create `[1, num_lines]`. -/
def updateEntry (maxSamples lineId : Nat) (wr : List (Str × List Nat) × PyRandom)
    (phrase : Str) : List (Str × List Nat) × PyRandom :=
  match dictGet wr.1 phrase with
  | some oldRecord =>
    if oldRecord = [] then (dictSet wr.1 phrase [1, lineId], wr.2)
    else
      let rec1 := updateRecord maxSamples lineId oldRecord wr.2
      (dictSet wr.1 phrase rec1.1, rec1.2)
  | none => (dictSet wr.1 phrase [1, lineId], wr.2)

/-- The phrase loop of lines 197-209 over the fed phrases. -/
def updateWords (maxSamples lineId : Nat) (phrases : List Str)
    (w : List (Str × List Nat)) (rng : PyRandom) : List (Str × List Nat) × PyRandom :=
  phrases.foldl (updateEntry maxSamples lineId) (w, rng)

/-- The mutable run state of `MakeIndexBatch.ProcessRecords`. -/
structure RunState where
  numLines : Nat
  numWords : Nat
  store : List (Str × Str)
  wordIndex : List (Str × List Nat)
  sentenceHashes : List Str
  rng : PyRandom
deriving DecidableEq, Repr

/-- The state at the top of `ProcessRecords`, after `__init__` seeded the
generator with the constant 19780211 (line 58). -/
def startState : RunState :=
  { numLines := 0, numWords := 0, store := [], wordIndex := [],
    sentenceHashes := [], rng := PyRandom.seeded 19780211 }

/-- The key `"[{}]".format(num_lines)` of a stored line. -/
def numKey (n : Nat) : Str :=
  '[' :: (Nat.repr n).toList ++ [']']

/-- The dedup hash of a raw input line: hash of the normalized first
tab-separated field of the stripped line (lines 140-147). -/
def lineHash (rawLine : Str) : Str :=
  primaryHash (normalizeSentence (pyStrip ((splitChar '\t' (pyStrip rawLine)).headD [])))

/-- The candidate phrases of a raw input line together with the
`num_words` delta (lines 142-186). -/
def lineCandidates (cfg : Config) (rawLine : Str) : List Str × Nat :=
  extractPhrases cfg (normalizeSentence (pyStrip ((splitChar '\t' (pyStrip rawLine)).headD [])))

/-- The phrases actually fed to the reservoir index for one accepted line:
the pruned candidate list truncated to `max_words`
(`phrases[:self.max_words]`, line 197). -/
def fedPhrases (cfg : Config) (rawLine : Str) : List Str :=
  (prunePhrases cfg (lineCandidates cfg rawLine).1).take cfg.maxWords

/-- The body of the `for line in sys.stdin` loop (lines 139-212): strip the
line, skip it when blank, skip it when the hash of its normalized first
field was seen before, and otherwise record the hash, store the stripped
line under the bracketed key of the current line id, feed the pruned
candidates to the reservoir index, and advance the line id. -/
def processLine (cfg : Config) (st : RunState) (rawLine : Str) : RunState :=
  let line := pyStrip rawLine
  if line = [] then st
  else if lineHash rawLine ∈ st.sentenceHashes then st
  else
    let cand := lineCandidates cfg rawLine
    let wr := updateWords cfg.maxSamples st.numLines (fedPhrases cfg rawLine)
      st.wordIndex st.rng
    { numLines := st.numLines + 1
      numWords := st.numWords + cand.2
      store := st.store ++ [(numKey st.numLines, line)]
      wordIndex := wr.1
      sentenceHashes := st.sentenceHashes ++ [lineHash rawLine]
      rng := wr.2 }

/-- `ProcessRecords` over a whole input stream. -/
def processLines (cfg : Config) (st : RunState) (lines : List Str) : RunState :=
  lines.foldl (processLine cfg) st

/-- `OutputIndex` (lines 216-228): after the stream, append one record per
phrase whose value is the comma-joined ascending list of its sample ids
(`sorted(ids[1:])`). -/
def outputFlush (st : RunState) : List (Str × Str) :=
  st.store ++ st.wordIndex.map (fun e =>
    (e.1, List.intercalate [','] ((e.2.tail.insertionSort (· ≤ ·)).map
      (fun n => (Nat.repr n).toList))))

/-- One whole run of `MakeIndexBatch.Run`.  `envEntropy` models the
process-level entropy (pid, wall clock) that a process- or time-seeded
generator would consume at startup; the program never reads it because
`__init__` seeds the generator with the fixed constant 19780211. -/
def fullRun (_envEntropy : Nat) (cfg : Config) (lines : List Str) : List (Str × Str) :=
  outputFlush (processLines cfg startState lines)

/-- Number of lines of a stream accepted from a given state: non-blank
lines whose dedup hash was not seen before (ghost function for the line-id
accounting; blank and duplicate lines consume no id). -/
def acceptedCount (cfg : Config) : RunState → List Str → Nat
  | _, [] => 0
  | st, l :: ls =>
    (if pyStrip l ≠ [] ∧ lineHash l ∉ st.sentenceHashes then 1 else 0) +
      acceptedCount cfg (processLine cfg st l) ls

theorem processLine_blank (cfg : Config) (st : RunState) (rawLine : Str)
    (h : pyStrip rawLine = []) : processLine cfg st rawLine = st := by
  simp only [processLine]
  rw [if_pos h]

theorem processLine_dup (cfg : Config) (st : RunState) (rawLine : Str)
    (h1 : pyStrip rawLine ≠ []) (h2 : lineHash rawLine ∈ st.sentenceHashes) :
    processLine cfg st rawLine = st := by
  simp only [processLine]
  rw [if_neg h1, if_pos h2]

theorem processLine_accepted (cfg : Config) (st : RunState) (rawLine : Str)
    (h1 : pyStrip rawLine ≠ []) (h2 : lineHash rawLine ∉ st.sentenceHashes) :
    processLine cfg st rawLine =
      { numLines := st.numLines + 1
        numWords := st.numWords + (lineCandidates cfg rawLine).2
        store := st.store ++ [(numKey st.numLines, pyStrip rawLine)]
        wordIndex := (updateWords cfg.maxSamples st.numLines (fedPhrases cfg rawLine)
          st.wordIndex st.rng).1
        sentenceHashes := st.sentenceHashes ++ [lineHash rawLine]
        rng := (updateWords cfg.maxSamples st.numLines (fedPhrases cfg rawLine)
          st.wordIndex st.rng).2 } := by
  simp only [processLine]
  rw [if_neg h1, if_neg h2]

theorem processLines_cons (cfg : Config) (st : RunState) (l : Str) (ls : List Str) :
    processLines cfg st (l :: ls) = processLines cfg (processLine cfg st l) ls := rfl

theorem processLines_store_keys (cfg : Config) : ∀ (lines : List Str) (st : RunState),
    st.store.map Prod.fst = (List.range st.numLines).map numKey →
    (processLines cfg st lines).store.map Prod.fst
        = (List.range (processLines cfg st lines).numLines).map numKey ∧
      (processLines cfg st lines).numLines = st.numLines + acceptedCount cfg st lines
  | [], st, h => ⟨h, by simp [processLines, acceptedCount]⟩
  | l :: ls, st, h => by
    rw [processLines_cons]
    by_cases hb : pyStrip l = []
    · have hskip : processLine cfg st l = st := processLine_blank cfg st l hb
      have ih := processLines_store_keys cfg ls st h
      rw [hskip]
      refine ⟨ih.1, ?_⟩
      rw [ih.2]
      simp [acceptedCount, hb, hskip]
    · by_cases hd : lineHash l ∈ st.sentenceHashes
      · have hskip : processLine cfg st l = st := processLine_dup cfg st l hb hd
        have ih := processLines_store_keys cfg ls st h
        rw [hskip]
        refine ⟨ih.1, ?_⟩
        rw [ih.2]
        simp [acceptedCount, hd, hskip]
      · have hacc := processLine_accepted cfg st l hb hd
        have hinv : (processLine cfg st l).store.map Prod.fst
            = (List.range (processLine cfg st l).numLines).map numKey := by
          rw [hacc]
          simp only [List.map_append, h, List.range_succ]
          simp
        have ih := processLines_store_keys cfg ls (processLine cfg st l) hinv
        refine ⟨ih.1, ?_⟩
        have hcnt : acceptedCount cfg st (l :: ls)
            = 1 + acceptedCount cfg (processLine cfg st l) ls := by
          simp only [acceptedCount]
          rw [if_pos ⟨hb, hd⟩]
        have hnl : (processLine cfg st l).numLines = st.numLines + 1 := by rw [hacc]
        rw [ih.2, hcnt, hnl]
        omega

/-- C10: every accepted (non-blank, non-duplicate) input line is written to
the store under a bracketed key — even a line yielding zero candidate
phrases — and the keys of the stored line records are exactly
`[0], [1], ..., [k-1]` in acceptance order, where `k` counts the accepted
lines: blank and duplicate lines consume no line id. -/
theorem lineIds_consecutive (cfg : Config) (lines : List Str) :
    (processLines cfg startState lines).store.map Prod.fst
        = (List.range (processLines cfg startState lines).numLines).map numKey ∧
      (processLines cfg startState lines).numLines = acceptedCount cfg startState lines := by
  have h := processLines_store_keys cfg lines startState (by simp [startState])
  exact ⟨h.1, h.2.trans (by simp [startState])⟩

/-- C9: a non-blank line whose normalized-sentence hash is already in the
seen-hash set is skipped entirely: the whole run state (line counter,
store, word index, hash set, and the random generator) is unchanged. -/
theorem duplicate_line_skipped (cfg : Config) (st : RunState) (rawLine : Str)
    (h1 : pyStrip rawLine ≠ []) (h2 : lineHash rawLine ∈ st.sentenceHashes) :
    processLine cfg st rawLine = st :=
  processLine_dup cfg st rawLine h1 h2

def cfgW : Config := ⟨50, 3, 100, none, [], fun _ => []⟩

def lineW : Str := "a b\tx".toList

theorem duplicate_line_skipped_witness :
    pyStrip lineW ≠ [] ∧
      lineHash lineW ∈ (processLine cfgW startState lineW).sentenceHashes ∧
      processLine cfgW (processLine cfgW startState lineW) lineW
        = processLine cfgW startState lineW :=
  ⟨by decide, by decide,
    duplicate_line_skipped cfgW (processLine cfgW startState lineW) lineW
      (by decide) (by decide)⟩

/-- C4: the generator is seeded with the fixed constant 19780211, not from
process- or time-level entropy, so two runs over the same input stream with
the same configuration produce identical outputs — in particular identical
phrase-to-sampled-ids mappings — whatever entropy the environment offers
to each run. -/
theorem run_deterministic (env1 env2 : Nat) (cfg : Config) (lines : List Str) :
    fullRun env1 cfg lines = fullRun env2 cfg lines := rfl

theorem baseProb_le_probLoop (table : Str → Option ℚ) (tokens : List Str) :
    ∀ (n : Nat) (penalty : ℚ), baseProb ≤ probLoop table tokens n penalty
  | 0, _ => le_refl _
  | n + 1, penalty => by
    simp only [probLoop]
    split_ifs with h1 h2 h3
    · exact le_max_right _ _
    · exact baseProb_le_probLoop table tokens n _
    · exact baseProb_le_probLoop table tokens n _
    · exact le_max_right _ _

/-- C7: `GetPhraseProb` never returns a value below the floor `1e-9`,
whatever the table holds and even for a phrase entirely absent from it at
every n-gram order. -/
theorem getPhraseProb_floor (table : Str → Option ℚ) (word : Str) :
    (1 : ℚ) / 1000000000 ≤ getPhraseProb table word := by
  show baseProb ≤ getPhraseProb table word
  simp only [getPhraseProb]
  split_ifs with h
  · exact le_refl _
  · exact baseProb_le_probLoop table (splitChar ' ' word) _ _

/-- C1 (the code side of the claim): with `max_samples = 1`, a full
reservoir `samples = [0]` of a phrase with `count = 1`, and a generator
whose next `randint(1, 2)` is 1 — so `r = 1 ≤ max_samples`, the case where
the claimed algorithm R overwrites `samples[r-1]` — the code's strict test
`rnd_value < self.max_samples` (line 205) keeps the old sample, while the
spec's update stores the new line id; moreover, for `max_samples = 1` the
code keeps the single sample slot forever, whatever the generator draws. -/
theorem reservoir_update_offByOne :
    (PyRandom.randint ⟨1⟩ 1 2).1 = 1 ∧
      (updateRecord 1 7 [1, 0] ⟨1⟩).1 = [2, 0] ∧
      (specReservoirUpdate 1 7 1 [0] ⟨1⟩).2.1 = [7] ∧
      ∀ (g : PyRandom) (c s lineId : Nat), (updateRecord 1 lineId [c, s] g).1 = [c + 1, s] := by
  refine ⟨by decide, by decide, by decide, ?_⟩
  intro g c s lineId
  have hlen : ¬((c :: s :: List.nil).length ≤ 1) := by simp
  have hge : ¬((g.randint 1 (c + 1)).1 < 1) := by
    simp only [PyRandom.randint]
    omega
  simp only [updateRecord, List.headD, hlen, if_false, hge, if_neg, ite_false]
  rfl

def cfgC3 : Config := ⟨50, 2, 100, none, [], fun _ => []⟩

def lineA : Str := "The cat sat.\tneko ga suwat".toList

def lineB : Str := "the cat sat\tneko ga suwatta".toList

def stC3 : RunState := processLines cfgC3 startState [lineA, lineB]

/-- C3, counterexample: the normalizer only lowercases and fixes quotes —
it does not strip the trailing period — so the two first fields normalize
to `"the cat sat."` and `"the cat sat"`, whose dedup hashes differ; both
lines are accepted, contrary to the claimed single stored line and single
increment per phrase count. -/
theorem catSat_hashes_differ :
    lineHash lineA ≠ lineHash lineB ∧
      lineHash lineA = primaryHash "the cat sat.".toList ∧
      lineHash lineB = primaryHash "the cat sat".toList ∧
      stC3.numLines = 2 ∧
      dictGet stC3.wordIndex "the".toList = some [2, 0, 1] := by
  refine ⟨by decide, by decide, by decide, by decide, by decide⟩

/-- C3, amended: the two lines map to different dedup hashes (the trailing
period survives normalization), so two line records are stored under `[0]`
and `[1]`, and the phrase counts for `the`, `cat`, `sat`, `the cat`,
`cat sat` are each incremented exactly twice, with both line ids sampled. -/
theorem catSat_two_records :
    stC3.store.map Prod.fst = [numKey 0, numKey 1] ∧
      dictGet stC3.wordIndex "the".toList = some [2, 0, 1] ∧
      dictGet stC3.wordIndex "cat".toList = some [2, 0, 1] ∧
      dictGet stC3.wordIndex "sat".toList = some [2, 0, 1] ∧
      dictGet stC3.wordIndex "the cat".toList = some [2, 0, 1] ∧
      dictGet stC3.wordIndex "cat sat".toList = some [2, 0, 1] := by
  refine ⟨by decide, by decide, by decide, by decide, by decide, by decide⟩

/-- C8, counterexample: `ProcessRecords` strips the raw line
(`line = line.strip()`, line 140) before storing it, so a line with
trailing whitespace is not stored byte for byte as read. -/
theorem stored_line_not_verbatim :
    (processLines cfgW startState ["x y\tz ".toList]).store
        = [(numKey 0, "x y\tz".toList)] ∧
      ("x y\tz".toList : Str) ≠ "x y\tz ".toList := by
  refine ⟨by decide, by decide⟩

/-- C8, amended: for every accepted input line, the value stored under the
bracketed sequential key is the whitespace-stripped input line — all
tab-separated fields preserved in between, even though only the first
field is indexed. -/
theorem stored_line_is_stripped (cfg : Config) (st : RunState) (rawLine : Str)
    (h1 : pyStrip rawLine ≠ []) (h2 : lineHash rawLine ∉ st.sentenceHashes) :
    (processLine cfg st rawLine).store
      = st.store ++ [(numKey st.numLines, pyStrip rawLine)] := by
  rw [processLine_accepted cfg st rawLine h1 h2]

theorem stored_line_is_stripped_witness :
    pyStrip "a b\tyz c ".toList ≠ [] ∧
      lineHash "a b\tyz c ".toList ∉ startState.sentenceHashes ∧
      (processLine cfgW startState "a b\tyz c ".toList).store
        = startState.store ++ [(numKey startState.numLines, pyStrip "a b\tyz c ".toList)] :=
  ⟨by decide, by decide,
    stored_line_is_stripped cfgW startState "a b\tyz c ".toList (by decide) (by decide)⟩

/-- C5: when a sentence yields more than `max_words` candidates, the
phrases fed to the reservoir index are the first `max_words` of a
permutation of the candidates that is sorted ascending by estimated
probability (if a phrase-probability table is configured), and the first
`max_words` candidates in extraction order otherwise. -/
theorem pruning_order (cfg : Config) (rawLine : Str)
    (h : cfg.maxWords < (lineCandidates cfg rawLine).1.length) :
    (∀ table, cfg.phraseProb = some table →
      ∃ L : List Str,
        L.Perm (lineCandidates cfg rawLine).1 ∧
          List.Sorted (fun a b => getPhraseProb table a ≤ getPhraseProb table b) L ∧
          fedPhrases cfg rawLine = L.take cfg.maxWords) ∧
      (cfg.phraseProb = none →
        fedPhrases cfg rawLine = (lineCandidates cfg rawLine).1.take cfg.maxWords) := by
  constructor
  · intro table htab
    refine ⟨(List.insertionSort (fun a b => a.2 ≤ b.2)
      ((lineCandidates cfg rawLine).1.map (fun p => (p, getPhraseProb table p)))).map
        Prod.fst, ?_, ?_, ?_⟩
    · have hperm := (List.perm_insertionSort (fun a b : Str × ℚ => a.2 ≤ b.2)
        ((lineCandidates cfg rawLine).1.map (fun p => (p, getPhraseProb table p)))).map
          Prod.fst
      have hid : (((lineCandidates cfg rawLine).1.map
          (fun p => (p, getPhraseProb table p))).map Prod.fst)
          = (lineCandidates cfg rawLine).1 := by
        rw [List.map_map]
        exact List.map_id _
      rw [hid] at hperm
      exact hperm
    · haveI : IsTotal (Str × ℚ) (fun a b => a.2 ≤ b.2) := ⟨fun a b => le_total a.2 b.2⟩
      haveI : IsTrans (Str × ℚ) (fun a b => a.2 ≤ b.2) :=
        ⟨fun _ _ _ h1 h2 => le_trans h1 h2⟩
      have hs := List.sorted_insertionSort (fun a b : Str × ℚ => a.2 ≤ b.2)
        ((lineCandidates cfg rawLine).1.map (fun p => (p, getPhraseProb table p)))
      show List.Pairwise _ _
      rw [List.pairwise_map]
      refine hs.imp_of_mem ?_
      intro a b ha hb hab
      have ha2 : a ∈ (lineCandidates cfg rawLine).1.map
          (fun p => (p, getPhraseProb table p)) :=
        (List.perm_insertionSort _ _).subset ha
      have hb2 : b ∈ (lineCandidates cfg rawLine).1.map
          (fun p => (p, getPhraseProb table p)) :=
        (List.perm_insertionSort _ _).subset hb
      obtain ⟨p, _, rfl⟩ := List.mem_map.mp ha2
      obtain ⟨q, _, rfl⟩ := List.mem_map.mp hb2
      exact hab
    · unfold fedPhrases prunePhrases
      rw [htab, if_pos h]
  · intro htab
    unfold fedPhrases prunePhrases
    rw [htab, if_pos h]

def cfgP : Config := ⟨1, 3, 100, none, [], fun _ => []⟩

def lineP : Str := "a b\tx".toList

theorem pruning_order_witness :
    cfgP.maxWords < (lineCandidates cfgP lineP).1.length ∧
      (cfgP.phraseProb = none →
        fedPhrases cfgP lineP = (lineCandidates cfgP lineP).1.take cfgP.maxWords) :=
  ⟨by decide, (pruning_order cfgP lineP (by decide)).2⟩

/-- Order `o` of the backoff loop is a total miss: for `len(tokens) <= o`
the whole-phrase lookup fails (reads as probability 0), otherwise some
sliding window of size `o` is absent from the table. -/
def orderMisses (table : Str → Option ℚ) (tokens : List Str) (o : Nat) : Prop :=
  if tokens.length ≤ o then lookupProb table (joinSpace tokens) = 0
  else 0 ∈ windowProbs table tokens o

theorem foldl_inv_sum : ∀ (l : List ℚ) (a : ℚ),
    l.foldl (fun acc p => acc + 1 / p) a = a + (l.map (fun p => 1 / p)).sum
  | [], a => by simp
  | q :: l, a => by
    simp only [List.foldl_cons, List.map_cons, List.sum_cons]
    rw [foldl_inv_sum l (a + 1 / q)]
    ring

theorem probLoop_skip (table : Str → Option ℚ) (tokens : List Str) (g : Nat) :
    ∀ (k : Nat) (penalty : ℚ),
      (∀ o, g < o → o ≤ g + k → orderMisses table tokens o) →
      probLoop table tokens (g + k) penalty
        = probLoop table tokens g (penalty * (1 / 10) ^ k)
  | 0, penalty, _ => by rw [pow_zero, mul_one, Nat.add_zero]
  | k + 1, penalty, hmiss => by
    have hm := hmiss (g + k + 1) (by omega) (by omega)
    have hrest : ∀ o, g < o → o ≤ g + k → orderMisses table tokens o :=
      fun o h1 h2 => hmiss o h1 (by omega)
    have ih := probLoop_skip table tokens g k (penalty * (1 / 10)) hrest
    have harg : penalty * (1 / 10) * ((1 : ℚ) / 10) ^ k = penalty * (1 / 10) ^ (k + 1) := by
      ring
    show probLoop table tokens ((g + k) + 1) penalty = _
    by_cases hlen : tokens.length ≤ (g + k) + 1
    · rw [orderMisses, if_pos hlen] at hm
      simp only [probLoop]
      rw [if_pos hlen, if_neg (fun hne => hne hm), ih, harg]
    · rw [orderMisses, if_neg hlen] at hm
      simp only [probLoop]
      rw [if_neg hlen, if_pos hm, ih, harg]

/-- C6: when the backoff loop of `GetPhraseProb` reaches a window order
`g < len(tokens)` after the `k = min(3, len(tokens)) - g` higher orders all
missed entirely, there are `len(tokens) - g + 1` sliding windows and: if
some window is absent the order is a total miss, the fallback penalty
gains another factor 0.1 and the loop moves to order `g - 1`; if all
windows are present the result is the harmonic mean of their probabilities
`m / sum(1/p_i)`, scaled by the length decay `0.3^(len(tokens) - g)` and
the accumulated penalty `0.1^k`, floored at `base_prob`. -/
theorem getPhraseProb_backoff (table : Str → Option ℚ) (word : Str) (g : Nat)
    (hg1 : 1 ≤ g) (hg3 : g ≤ 3)
    (hlt : g < (splitChar ' ' word).length)
    (hmiss : ∀ o, g < o → o ≤ min 3 (splitChar ' ' word).length →
      orderMisses table (splitChar ' ' word) o) :
    (windowProbs table (splitChar ' ' word) g).length
        = (splitChar ' ' word).length - g + 1 ∧
      (0 ∈ windowProbs table (splitChar ' ' word) g →
        getPhraseProb table word
          = probLoop table (splitChar ' ' word) (g - 1)
              (((1 : ℚ) / 10) ^ (min 3 (splitChar ' ' word).length - g + 1))) ∧
      (0 ∉ windowProbs table (splitChar ' ' word) g →
        getPhraseProb table word
          = max ((((windowProbs table (splitChar ' ' word) g).length : ℚ) /
                ((windowProbs table (splitChar ' ' word) g).map (fun p => 1 / p)).sum) *
                (3 / 10) ^ ((splitChar ' ' word).length - g) *
                ((1 : ℚ) / 10) ^ (min 3 (splitChar ' ' word).length - g))
              baseProb) := by
  have hne : splitChar ' ' word ≠ [] := by
    intro hnil
    rw [hnil] at hlt
    simp at hlt
  have hlen : (windowProbs table (splitChar ' ' word) g).length
      = (splitChar ' ' word).length - g + 1 := by
    simp only [windowProbs, windowPhrases, List.length_map, List.length_range]
    omega
  have hmin : min 3 (splitChar ' ' word).length
      = g + (min 3 (splitChar ' ' word).length - g) := by omega
  have hk : getPhraseProb table word
      = probLoop table (splitChar ' ' word) g
          ((1 : ℚ) * (1 / 10) ^ (min 3 (splitChar ' ' word).length - g)) := by
    rw [getPhraseProb, if_neg hne]
    conv_lhs => rw [hmin]
    exact probLoop_skip table (splitChar ' ' word) g
      (min 3 (splitChar ' ' word).length - g) 1
      (fun o h1 h2 => hmiss o h1 (by omega))
  have hstep : ∀ penalty : ℚ, probLoop table (splitChar ' ' word) g penalty
      = if 0 ∈ windowProbs table (splitChar ' ' word) g then
          probLoop table (splitChar ' ' word) (g - 1) (penalty * (1 / 10))
        else
          max ((((windowProbs table (splitChar ' ' word) g).length : ℚ) /
              ((windowProbs table (splitChar ' ' word) g).foldl
                (fun acc p => acc + 1 / p) 0)) *
              (3 / 10) ^ ((splitChar ' ' word).length - g) * penalty)
            baseProb := by
    intro penalty
    have hnlen : ¬((splitChar ' ' word).length ≤ (g - 1) + 1) := by omega
    conv_lhs => rw [show g = (g - 1) + 1 from by omega]
    simp only [probLoop]
    rw [if_neg hnlen]
    rw [show (g - 1) + 1 = g from by omega]
  refine ⟨hlen, ?_, ?_⟩
  · intro hmem
    rw [hk, hstep, if_pos hmem]
    have harg : (1 : ℚ) * (1 / 10) ^ (min 3 (splitChar ' ' word).length - g) * (1 / 10)
        = ((1 : ℚ) / 10) ^ (min 3 (splitChar ' ' word).length - g + 1) := by
      ring
    rw [harg]
  · intro hmem
    rw [hk, hstep, if_neg hmem]
    rw [foldl_inv_sum]
    refine congrArg (fun x => max x baseProb) ?_
    rw [zero_add, one_mul]

def tableC6 : Str → Option ℚ := fun s =>
  if s = "a b".toList then some 1 else if s = "b c".toList then some 1 else none

def wordC6 : Str := "a b c".toList

theorem getPhraseProb_backoff_witness :
    (1 ≤ 2 ∧ 2 ≤ 3 ∧ 2 < (splitChar ' ' wordC6).length) ∧
      (0 : ℚ) ∉ windowProbs tableC6 (splitChar ' ' wordC6) 2 ∧
      getPhraseProb tableC6 wordC6
        = max ((((windowProbs tableC6 (splitChar ' ' wordC6) 2).length : ℚ) /
              ((windowProbs tableC6 (splitChar ' ' wordC6) 2).map (fun p => 1 / p)).sum) *
              (3 / 10) ^ ((splitChar ' ' wordC6).length - 2) *
              ((1 : ℚ) / 10) ^ (min 3 (splitChar ' ' wordC6).length - 2))
            baseProb := by
  have hmissW : ∀ o, 2 < o → o ≤ min 3 (splitChar ' ' wordC6).length →
      orderMisses tableC6 (splitChar ' ' wordC6) o := by
    intro o h1 h2
    have hlenW : (splitChar ' ' wordC6).length = 3 := by decide
    rw [hlenW] at h2
    have ho : o = 3 := by omega
    subst ho
    unfold orderMisses
    rw [if_pos (by decide : (splitChar ' ' wordC6).length ≤ 3)]
    decide
  refine ⟨⟨by decide, by decide, by decide⟩, by decide, ?_⟩
  exact (getPhraseProb_backoff tableC6 wordC6 2 (by decide) (by decide) (by decide)
    hmissW).2.2 (by decide)

/-- The line ids at which a phrase is fed to the reservoir index (ghost
function): for every accepted line, one occurrence of `p` per time `p`
appears among the phrases fed for that line, tagged with the line id. -/
def phraseOccs (cfg : Config) : RunState → List Str → Str → List Nat
  | _, [], _ => []
  | st, l :: ls, p =>
    (if pyStrip l ≠ [] ∧ lineHash l ∉ st.sentenceHashes then
      List.replicate ((fedPhrases cfg l).count p) st.numLines
    else []) ++ phraseOccs cfg (processLine cfg st l) ls p

/-- The reservoir-record invariant: a record `[count, samples...]` of a
phrase whose occurrence ids so far are `occs` has `count = len(occs)`,
holds `min(count, max_samples)` samples, and — while `count` has not yet
exceeded `max_samples` — its samples are exactly `occs`. -/
def recordOK (m : Nat) (rec : List Nat) (occs : List Nat) : Prop :=
  rec ≠ [] ∧ rec.headD 0 = occs.length ∧ rec.length = min (rec.headD 0) m + 1 ∧
    (rec.headD 0 ≤ m → rec.tail = occs)

/-- The word-index invariant with respect to an occurrence map `O`. -/
def indexOK (m : Nat) (w : List (Str × List Nat)) (O : Str → List Nat) : Prop :=
  ∀ p, (dictGet w p = none → O p = []) ∧
    ∀ rec, dictGet w p = some rec → recordOK m rec (O p)

theorem indexOK_congr (m : Nat) (w : List (Str × List Nat)) (O O' : Str → List Nat)
    (h : ∀ p, O p = O' p) (hw : indexOK m w O) : indexOK m w O' := by
  intro p
  rw [← h p]
  exact hw p

theorem dictGet_dictSet (w : List (Str × List Nat)) (p q : Str) (r : List Nat) :
    dictGet (dictSet w q r) p = if p = q then some r else dictGet w p := by
  induction w with
  | nil =>
    by_cases h : p = q
    · subst h
      simp [dictGet, dictSet]
    · simp [dictGet, dictSet, h, Ne.symm h]
  | cons e t ih =>
    by_cases he : e.1 = q
    · by_cases h : p = q
      · subst h
        simp [dictGet, dictSet, he]
      · have he2 : e.1 ≠ p := by
          rw [he]
          exact Ne.symm h
        simp [dictGet, dictSet, he, h, Ne.symm h, he2, ih]
    · by_cases h : p = q
      · subst h
        simp [dictGet, dictSet, he, ih]
      · simp [dictGet, dictSet, he, h, Ne.symm h, ih]

theorem updateRecord_ok (m lineId : Nat) (rec occs : List Nat) (g : PyRandom)
    (_hm : 1 ≤ m) (h : recordOK m rec occs) :
    recordOK m (updateRecord m lineId rec g).1 (occs ++ [lineId]) := by
  obtain ⟨hne, hhead, hlen, htail⟩ := h
  obtain ⟨c, t, rfl⟩ : ∃ c t, rec = c :: t := by
    cases rec with
    | nil => exact absurd rfl hne
    | cons c t => exact ⟨c, t, rfl⟩
  simp only [List.headD_cons, List.tail_cons] at hhead hlen htail
  have htl : t.length = min c m := by
    simpa using congrArg (fun n => n - 1) hlen
  by_cases hle : (c :: t).length ≤ m
  · have hcm : c < m := by
      simp only [List.length_cons] at hle
      omega
    simp only [updateRecord, List.headD_cons, if_pos hle]
    refine ⟨by simp, ?_, ?_, ?_⟩
    · simp
      omega
    · simp
      omega
    · intro _
      simp only [List.cons_append, List.set_cons_zero, List.tail_cons]
      rw [htail (by omega)]
  · have hcm : m ≤ c := by
      simp only [List.length_cons] at hle
      omega
    have htm : t.length = m := by omega
    simp only [updateRecord, List.headD_cons, if_neg hle]
    by_cases hrep : (g.randint 1 (c + 1)).1 < m
    · rw [if_pos (by simpa using hrep)]
      have hrpos : 1 ≤ (g.randint 1 (c + 1)).1 :=
        (PyRandom.randint_mem g 1 (c + 1) (by omega)).1
      have hset : (c :: t).set (g.randint 1 (c + 1)).1 lineId
          = c :: t.set ((g.randint 1 (c + 1)).1 - 1) lineId := by
        conv_lhs => rw [show (g.randint 1 (c + 1)).1 = ((g.randint 1 (c + 1)).1 - 1) + 1
          from by omega]
        rfl
      rw [hset]
      simp only [List.set_cons_zero]
      refine ⟨by simp, ?_, ?_, ?_⟩
      · simp
        omega
      · simp
        omega
      · intro hfull
        simp only [List.headD_cons] at hfull
        omega
    · rw [if_neg (by simpa using hrep)]
      simp only [List.set_cons_zero]
      refine ⟨by simp, ?_, ?_, ?_⟩
      · simp
        omega
      · simp
        omega
      · intro hfull
        simp only [List.headD_cons] at hfull
        omega

theorem updateEntry_ok (m lineId : Nat) (w : List (Str × List Nat)) (g : PyRandom)
    (p' : Str) (O : Str → List Nat) (hm : 1 ≤ m) (h : indexOK m w O) :
    indexOK m (updateEntry m lineId (w, g) p').1
      (fun p => O p ++ if p = p' then [lineId] else []) := by
  cases hget : dictGet w p' with
  | none =>
    have hO : O p' = [] := (h p').1 hget
    simp only [updateEntry, hget]
    intro p
    constructor
    · intro hnone
      show O p ++ (if p = p' then [lineId] else []) = []
      rw [dictGet_dictSet] at hnone
      by_cases hp : p = p'
      · rw [if_pos hp] at hnone
        cases hnone
      · rw [if_neg hp] at hnone
        rw [if_neg hp, List.append_nil]
        exact (h p).1 hnone
    · intro rec hrec
      show recordOK m rec (O p ++ if p = p' then [lineId] else [])
      rw [dictGet_dictSet] at hrec
      by_cases hp : p = p'
      · rw [if_pos hp] at hrec
        injection hrec with hrec
        subst hrec
        rw [if_pos hp, hp, hO, List.nil_append]
        refine ⟨by simp, by simp, ?_, by intro _; simp⟩
        simp
        omega
      · rw [if_neg hp] at hrec
        rw [if_neg hp, List.append_nil]
        exact (h p).2 rec hrec
  | some oldRec =>
    have hrOK := (h p').2 oldRec hget
    have hne : oldRec ≠ [] := hrOK.1
    simp only [updateEntry, hget, if_neg hne]
    intro p
    constructor
    · intro hnone
      show O p ++ (if p = p' then [lineId] else []) = []
      rw [dictGet_dictSet] at hnone
      by_cases hp : p = p'
      · rw [if_pos hp] at hnone
        cases hnone
      · rw [if_neg hp] at hnone
        rw [if_neg hp, List.append_nil]
        exact (h p).1 hnone
    · intro rec hrec
      show recordOK m rec (O p ++ if p = p' then [lineId] else [])
      rw [dictGet_dictSet] at hrec
      by_cases hp : p = p'
      · rw [if_pos hp] at hrec
        injection hrec with hrec
        subst hrec
        rw [if_pos hp, hp]
        exact updateRecord_ok m lineId oldRec (O p') g hm hrOK
      · rw [if_neg hp] at hrec
        rw [if_neg hp, List.append_nil]
        exact (h p).2 rec hrec

theorem updateWords_ok (m lineId : Nat) (hm : 1 ≤ m) :
    ∀ (F : List Str) (w : List (Str × List Nat)) (g : PyRandom) (O : Str → List Nat),
      indexOK m w O →
      indexOK m (updateWords m lineId F w g).1
        (fun p => O p ++ List.replicate (F.count p) lineId)
  | [], w, g, O, h => by
    have hw : (updateWords m lineId [] w g).1 = w := rfl
    rw [hw]
    exact indexOK_congr m w O _ (fun p => by simp) h
  | q :: F', w, g, O, h => by
    have hstep : updateWords m lineId (q :: F') w g
        = updateWords m lineId F' (updateEntry m lineId (w, g) q).1
            (updateEntry m lineId (w, g) q).2 := rfl
    have h1 := updateEntry_ok m lineId w g q O hm h
    have ih := updateWords_ok m lineId hm F' (updateEntry m lineId (w, g) q).1
      (updateEntry m lineId (w, g) q).2
      (fun p => O p ++ if p = q then [lineId] else []) h1
    rw [hstep]
    refine indexOK_congr m _ _ _ (fun p => ?_) ih
    by_cases hp : p = q
    · subst hp
      simp [List.count_cons, List.replicate_succ, List.append_assoc]
    · simp [List.count_cons, hp]

theorem processLines_indexOK (cfg : Config) (hm : 1 ≤ cfg.maxSamples) :
    ∀ (lines : List Str) (st : RunState) (O : Str → List Nat),
      indexOK cfg.maxSamples st.wordIndex O →
      indexOK cfg.maxSamples (processLines cfg st lines).wordIndex
        (fun p => O p ++ phraseOccs cfg st lines p)
  | [], st, O, h => by
    refine indexOK_congr _ _ O _ (fun p => ?_) h
    simp [phraseOccs]
  | l :: ls, st, O, h => by
    rw [processLines_cons]
    by_cases hb : pyStrip l = []
    · have hskip : processLine cfg st l = st := processLine_blank cfg st l hb
      have ih := processLines_indexOK cfg hm ls st O h
      rw [hskip]
      refine indexOK_congr _ _ _ _ (fun p => ?_) ih
      show O p ++ phraseOccs cfg st ls p = O p ++ phraseOccs cfg st (l :: ls) p
      simp only [phraseOccs, hskip]
      rw [if_neg (fun hcond => hcond.1 hb)]
      simp
    · by_cases hd : lineHash l ∈ st.sentenceHashes
      · have hskip : processLine cfg st l = st := processLine_dup cfg st l hb hd
        have ih := processLines_indexOK cfg hm ls st O h
        rw [hskip]
        refine indexOK_congr _ _ _ _ (fun p => ?_) ih
        show O p ++ phraseOccs cfg st ls p = O p ++ phraseOccs cfg st (l :: ls) p
        simp only [phraseOccs, hskip]
        rw [if_neg (fun hcond => hcond.2 hd)]
        simp
      · have hacc := processLine_accepted cfg st l hb hd
        have hwi : (processLine cfg st l).wordIndex
            = (updateWords cfg.maxSamples st.numLines (fedPhrases cfg l)
                st.wordIndex st.rng).1 := by
          rw [hacc]
        have h1 := updateWords_ok cfg.maxSamples st.numLines hm (fedPhrases cfg l)
          st.wordIndex st.rng O h
        have h2 : indexOK cfg.maxSamples (processLine cfg st l).wordIndex
            (fun p => O p ++ List.replicate ((fedPhrases cfg l).count p) st.numLines) := by
          rw [hwi]
          exact h1
        have ih := processLines_indexOK cfg hm ls (processLine cfg st l) _ h2
        refine indexOK_congr _ _ _ _ (fun p => ?_) ih
        show (O p ++ List.replicate ((fedPhrases cfg l).count p) st.numLines)
            ++ phraseOccs cfg (processLine cfg st l) ls p
          = O p ++ phraseOccs cfg st (l :: ls) p
        conv_rhs => rw [phraseOccs]
        rw [if_pos ⟨hb, hd⟩, List.append_assoc]

/-- C2: after any run over any input stream (so in particular after every
single `Update`), every phrase record `[count, samples...]` satisfies
`len(samples) <= max_samples` and `count >= len(samples)`; and as long as
`count <= max_samples`, the samples are exactly the line ids of every
indexed occurrence of the phrase so far, in order and with no omissions. -/
theorem reservoir_invariant (cfg : Config) (lines : List Str) (p : Str) (rec : List Nat)
    (hm : 1 ≤ cfg.maxSamples)
    (hget : dictGet (processLines cfg startState lines).wordIndex p = some rec) :
    rec.tail.length ≤ cfg.maxSamples ∧
      rec.tail.length ≤ rec.headD 0 ∧
      (rec.headD 0 ≤ cfg.maxSamples →
        rec.tail = phraseOccs cfg startState lines p) := by
  have hinit : indexOK cfg.maxSamples startState.wordIndex (fun _ => []) := by
    intro q
    constructor
    · intro _
      rfl
    · intro r hr
      simp [startState, dictGet] at hr
  have h := processLines_indexOK cfg hm lines startState (fun _ => []) hinit
  obtain ⟨hne, hhead, hlen, htail⟩ := (h p).2 rec hget
  have htlen : rec.tail.length = rec.length - 1 := by
    cases rec with
    | nil => exact absurd rfl hne
    | cons a t => simp
  refine ⟨by omega, by omega, ?_⟩
  intro hcount
  simpa using htail hcount

theorem reservoir_invariant_witness :
    1 ≤ cfgC3.maxSamples ∧
      dictGet stC3.wordIndex "the".toList = some [2, 0, 1] ∧
      ([2, 0, 1] : List Nat).tail.length ≤ cfgC3.maxSamples ∧
      ([2, 0, 1] : List Nat).tail.length ≤ ([2, 0, 1] : List Nat).headD 0 ∧
      (([2, 0, 1] : List Nat).headD 0 ≤ cfgC3.maxSamples →
        ([2, 0, 1] : List Nat).tail = phraseOccs cfgC3 startState [lineA, lineB] "the".toList) := by
  have h := reservoir_invariant cfgC3 [lineA, lineB] "the".toList [2, 0, 1]
    (by decide) (by decide)
  exact ⟨by decide, by decide, h.1, h.2.1, h.2.2⟩
